import Mathlib

/-!
Verification of the persistence pipeline of `tensorboard_reducer/write.py`:
the overwrite guard `force_rm_or_raise`, the event-log writer
`write_tb_events`, and the tabular writer `write_csv`.

The Python functions are shallowly embedded as pure Lean functions.
Filesystem interaction is modelled by a map from path strings to a
`PathState` record; scalar values are modelled as integers (the code only
passes values through and forms sums/differences, so the data flow is
unchanged by the choice of numeric carrier).
-/

namespace TBReducer

/-- State of one filesystem path, as observed by `os.path.exists`,
`os.path.isdir` and `os.listdir` in `force_rm_or_raise`. -/
structure PathState where
  pexists : Bool
  isDir : Bool
  children : List String
  deriving Repr, DecidableEq

/-- A filesystem: what each path string currently looks like. -/
def FileSystem := String → PathState

/-- A filesystem in which no path exists (fresh output area). -/
def emptyFS : FileSystem := fun _ => ⟨false, false, []⟩

/-- `s.endswith(post)` on Python strings, computed on the character lists so
that concrete instances reduce in the kernel. -/
def strEndsWith (s post : String) : Bool := post.data.isSuffixOf s.data

/-- `s.startswith(pre)` on Python strings, computed on the character lists so
that concrete instances reduce in the kernel. -/
def strStartsWith (s p : String) : Bool := p.data.isPrefixOf s.data

/-- Outcome of a call to `force_rm_or_raise`.
`proceeded deleted` means the function returned normally, with `deleted`
recording whether `rm -rf` ran; `raisedFileExists` models the raised
`FileExistsError`; `raisedIndexError` models the `IndexError` from
`os.listdir(path)[0]` on an empty directory. -/
inductive GuardOutcome where
  | proceeded (deleted : Bool)
  | raisedFileExists
  | raisedIndexError
  deriving Repr, DecidableEq

/-- Embedding of `force_rm_or_raise(path, overwrite)` (write.py lines 8-39).
The `is_csv_file` test is `path.endswith(".csv")`; the `is_tb_run_dir`
test is `os.path.isdir(path) and os.listdir(path)[0].startswith("events.out")`,
which raises `IndexError` when the path is a directory with no children.
On the branch where `overwrite` is set but neither test holds, the code
only constructs `ValueError(...)` without raising it, so the function
returns normally without deleting anything. -/
def force_rm_or_raise (fs : FileSystem) (path : String) (overwrite : Bool) :
    GuardOutcome :=
  let st := fs path
  if st.pexists then
    let is_csv_file := strEndsWith path ".csv"
    if st.isDir && st.children.isEmpty then
      GuardOutcome.raisedIndexError
    else
      let is_tb_run_dir := st.isDir && strStartsWith (st.children.headD "") "events.out"
      if overwrite && (is_csv_file || is_tb_run_dir) then
        GuardOutcome.proceeded true
      else if overwrite then
        GuardOutcome.proceeded false
      else
        GuardOutcome.raisedFileExists
  else
    GuardOutcome.proceeded false

/-- A filesystem containing exactly one path, in the given state. -/
def fsWith (path : String) (st : PathState) : FileSystem :=
  fun p => if p = path then st else ⟨false, false, []⟩

/-- A filesystem in which no destination exists yet. -/
def freshFS (fs : FileSystem) : Prop := ∀ p, (fs p).pexists = false

/-- The carrier of metric values.  The writers only copy values and form
sums/differences, so the embedding models them as integers, which the kernel
evaluates; the data flow is independent of the numeric carrier. -/
abbrev Val := Int

/-- A scalar metric series: ordered (step, value) pairs. -/
abbrev Series := List (Int × Val)

/-- A tag table: mapping from tag name to series, in insertion order
(Python dict). -/
abbrev TagTable := List (String × Series)

/-- A reduced dataset: mapping from reduce-op name to tag table, in insertion
order (Python dict). -/
abbrev ReducedDataset := List (String × TagTable)

/-- `op in data_to_write.keys()`. -/
def hasOp (d : ReducedDataset) (op : String) : Bool :=
  d.any (fun p => p.1 == op)

/-- `data_to_write[op]` (defaulting to an empty table when absent; it is only
used under a `hasOp` guard, mirroring the dict lookup that cannot fail
there). -/
def findOp (d : ReducedDataset) (op : String) : TagTable :=
  ((d.find? (fun p => p.1 == op)).map Prod.snd).getD []

/-- `data_to_write.pop(op)`'s effect on the mapping: the entry is removed,
every other entry is untouched. -/
def removeOp (d : ReducedDataset) (op : String) : ReducedDataset :=
  d.filter (fun p => p.1 != op)

/-- The Python dict invariant that step keys within one series are strictly
increasing, as a computable predicate on the step list. -/
def stepsIncreasing : List Int → Bool
  | [] => true
  | [_] => true
  | a :: b :: rest => (decide (a < b)) && stepsIncreasing (b :: rest)

/-- One point emitted to a TensorBoard event-log sink: `add_scalar` emits a
`scalar` point, `add_scalars` emits a `scalars` record carrying its labelled
values. -/
inductive TBPoint where
  | scalar (tag : String) (value : Val) (step : Int)
  | scalars (tag : String) (values : List (String × Val)) (step : Int)
  deriving Repr, DecidableEq

/-- One written event-log destination: its directory and the points emitted
to it, in emission order. -/
structure TBRun where
  dir : String
  points : List TBPoint
  deriving Repr, DecidableEq

/-- An error propagated out of a writer call. -/
inductive WriteError where
  | alreadyExists (path : String)
  | indexError (path : String)
  deriving Repr, DecidableEq

/-- Converts a guard outcome into the exception it propagates, if any. -/
def guardError (path : String) : GuardOutcome → Option WriteError
  | GuardOutcome.proceeded _ => none
  | GuardOutcome.raisedFileExists => some (WriteError.alreadyExists path)
  | GuardOutcome.raisedIndexError => some (WriteError.indexError path)

/-- The points emitted by the plain per-op loop body (write.py lines 93-95):
for every tag, every (step, value) verbatim, tags contiguous in table
order. -/
def scalarPoints (tt : TagTable) : List TBPoint :=
  tt.flatMap fun ts => ts.2.map fun sv => TBPoint.scalar ts.1 sv.2 sv.1

/-- The points emitted to the `-std` destination (write.py lines 74-80):
`zip(mean_dict.items(), std_dict.values())` pairs mean entries with std
series positionally, and `zip(means.items(), stds.to_numpy())` pairs the
(step, mean) pairs with the std values positionally. -/
def stdPoints (mean_dict std_dict : TagTable) : List TBPoint :=
  (mean_dict.zip (std_dict.map Prod.snd)).flatMap fun p =>
    (p.1.2.zip (p.2.map Prod.snd)).map fun q =>
      TBPoint.scalars p.1.1
        [("mean+std", q.1.2 + q.2), ("mean-std", q.1.2 - q.2)] q.1.1

/-- The per-op destination written for one remaining dataset entry. -/
def mkOpRun (outdir : String) (p : String × TagTable) : TBRun :=
  TBRun.mk (outdir ++ "-" ++ p.1) (scalarPoints p.2)

/-- The per-op loop of `write_tb_events` (write.py lines 85-100): each entry
is guarded, then written; a raised guard error aborts the rest of the
loop. -/
def writeOps (fs : FileSystem) (outdir : String) (overwrite : Bool) :
    ReducedDataset → List TBRun × Option WriteError
  | [] => ([], none)
  | p :: rest =>
    let dir := outdir ++ "-" ++ p.1
    match guardError dir (force_rm_or_raise fs dir overwrite) with
    | some e => ([], some e)
    | none =>
      let r := writeOps fs outdir overwrite rest
      (TBRun.mk dir (scalarPoints p.2) :: r.1, r.2)

/-- Result of a `write_tb_events` call: the destinations fully written, the
exception that aborted the call (if any), and the state of the caller's
`data_to_write` mapping afterwards (the code mutates it in place via
`pop`). -/
structure WriteResult where
  runs : List TBRun
  error : Option WriteError
  finalData : ReducedDataset
  deriving Repr, DecidableEq

/-- Embedding of `write_tb_events(data_to_write, outdir, overwrite)`
(write.py lines 42-100).  When both "mean" and "std" are present, "std" is
popped from the mapping first, then the `-std` destination is guarded and
written with the merged band points; afterwards (or directly, when the pair
is absent) every remaining op is guarded and written as plain scalars. -/
def write_tb_events (fs : FileSystem) (data_to_write : ReducedDataset)
    (outdir : String) (overwrite : Bool) : WriteResult :=
  if hasOp data_to_write "mean" && hasOp data_to_write "std" then
    let std_dict := findOp data_to_write "std"
    let mean_dict := findOp data_to_write "mean"
    let d2 := removeOp data_to_write "std"
    let std_dir := outdir ++ "-std"
    match guardError std_dir (force_rm_or_raise fs std_dir overwrite) with
    | some e => ⟨[], some e, d2⟩
    | none =>
      let r := writeOps fs outdir overwrite d2
      ⟨TBRun.mk std_dir (stdPoints mean_dict std_dict) :: r.1, r.2, d2⟩
  else
    let r := writeOps fs outdir overwrite data_to_write
    ⟨r.1, r.2, data_to_write⟩

/-- The step carried by an emitted point. -/
def stepOf : TBPoint → Int
  | TBPoint.scalar _ _ st => st
  | TBPoint.scalars _ _ st => st

/-- Lookup of a tag's series in a tag table by name (dict access). -/
def lookupTag (tt : TagTable) (tag : String) : Series :=
  ((tt.find? (fun p => p.1 == tag)).map Prod.snd).getD []

/-- Lookup of a step's value in a series by step key. -/
def lookupStep (s : Series) (st : Int) : Option Val :=
  (s.find? (fun sv => sv.1 == st)).map Prod.snd

/-- The band points as the spec words them: for every tag of the mean table,
the std values are taken from the std series of the SAME TAG (looked up by
name), paired positionally with the mean series.  This is the specification
counterpart of `stdPoints`, which pairs the two tables positionally. -/
def bandSpecPoints (mean_dict std_dict : TagTable) : List TBPoint :=
  mean_dict.flatMap fun ts =>
    (ts.2.zip ((lookupTag std_dict ts.1).map Prod.snd)).map fun q =>
      TBPoint.scalars ts.1
        [("mean+std", q.1.2 + q.2), ("mean-std", q.1.2 - q.2)] q.1.1

/-- Sorted duplicate-free insertion of a step into a step index. -/
def insertStep (x : Int) : List Int → List Int
  | [] => [x]
  | y :: ys =>
    if x < y then x :: y :: ys
    else if x = y then y :: ys
    else y :: insertStep x ys

/-- All step keys of the dataset, over all ops and tags, in order. -/
def dsSteps (d : ReducedDataset) : List Int :=
  d.flatMap fun p => p.2.flatMap fun ts => ts.2.map Prod.fst

/-- The union of all step keys over all ops and tags, sorted ascending and
duplicate-free: the row index produced by the outer join of
`pd.DataFrame(dic)` / `pd.concat(..., axis=1)`. -/
def allSteps (d : ReducedDataset) : List Int :=
  (dsSteps d).foldr insertStep []

/-- The in-memory multi-index dataframe built by `write_csv`: a list of
columns (compound key and cells, aligned with `index`), the row index, and
the row-index name. -/
structure CsvTable where
  cols : List ((String × String) × List (Option Val))
  index : List Int
  indexName : String
  deriving Repr, DecidableEq

/-- `pd.concat(dict_of_dfs, axis=1)` (write.py lines 127-128): one column per
(op, tag) in insertion order, outer-joined on the union of all step indexes;
a step absent from a series yields an empty cell, not an error. -/
def concat_tables (d : ReducedDataset) : CsvTable :=
  { cols := d.flatMap fun p => p.2.map fun ts =>
      ((p.1, ts.1), (allSteps d).map (lookupStep ts.2))
  , index := allSteps d
  , indexName := "" }

/-- `df.columns.swaplevel(0, 1)` (write.py line 129): swap the two levels of
every column key, leaving column order and cells unchanged. -/
def swaplevel (t : CsvTable) : CsvTable :=
  { t with cols := t.cols.map fun c => (Prod.swap c.1, c.2) }

/-- `df.index.name = "step"` (write.py line 131). -/
def setIndexStep (t : CsvTable) : CsvTable := { t with indexName := "step" }

/-- The table `write_csv` serializes: concat, swaplevel, name the index. -/
def write_csv_table (d : ReducedDataset) : CsvTable :=
  setIndexStep (swaplevel (concat_tables d))

/-- Outcome of a `write_csv` call. -/
inductive CsvOutcome where
  | assertionError
  | guardRaised (e : WriteError)
  | written (t : CsvTable)
  deriving Repr, DecidableEq

/-- Embedding of `write_csv(data_to_write, csv_path, overwrite)` (write.py
lines 103-132): the `.csv`-extension assert runs first, then the guard, then
the table is built and serialized. -/
def write_csv (fs : FileSystem) (data_to_write : ReducedDataset)
    (csv_path : String) (overwrite : Bool) : CsvOutcome :=
  if strEndsWith csv_path ".csv" = false then CsvOutcome.assertionError
  else
    match guardError csv_path (force_rm_or_raise fs csv_path overwrite) with
    | some e => CsvOutcome.guardRaised e
    | none => CsvOutcome.written (write_csv_table data_to_write)

/-- Modelled from the spec: the table sink's row-encoding and the documented
reload convention (`header=[0, 1], index_col=0`) are external collaborators
treated as opaque; their contract is that reloading reconstructs the
identical two-level structure, so the serialize-reload round trip is the
identity on the table. -/
def reload_csv (t : CsvTable) : CsvTable := t

/-- The (op, tag, step, value) quadruples a reader extracts from a reloaded
table: per column (keyed (tag, op)), the non-empty cells with their row
index. -/
def tableQuadruples (t : CsvTable) : List (String × String × Int × Val) :=
  t.cols.flatMap fun c =>
    (t.index.zip c.2).filterMap fun sc => sc.2.map fun v => (c.1.2, c.1.1, sc.1, v)

/-- The (op, tag, step, value) quadruples of the input dataset. -/
def datasetQuadruples (d : ReducedDataset) : List (String × String × Int × Val) :=
  d.flatMap fun p => p.2.flatMap fun ts => ts.2.map fun sv => (p.1, ts.1, sv.1, sv.2)

/-- Concrete dataset refuting the tag-set form of the band-pairing claim:
the mean and std tables hold the same tags in different insertion orders. -/
def dsSwap : ReducedDataset :=
  [("mean", [("a", [(0, 1)]), ("b", [(0, 2)])]),
   ("std", [("b", [(0, 3)]), ("a", [(0, 5)])])]

/-- Concrete mean/std dataset with aligned tag order and steps (the spec's
concrete scenario, with integer-scaled values). -/
def dsBand : ReducedDataset :=
  [("mean", [("loss", [(0, 10), (1, 5)])]),
   ("std", [("loss", [(0, 1), (1, 2)])])]

/-- Concrete single-op dataset. -/
def dsMeanOnly : ReducedDataset :=
  [("mean", [("acc", [(2, 7), (5, 9)])])]

/-- Concrete two-op dataset with differing step sets, for the tabular
writer. -/
def dsCsv : ReducedDataset :=
  [("mean", [("loss", [(0, 3), (1, 4)]), ("acc", [(1, 8)])]),
   ("max", [("loss", [(0, 6)])])]

end TBReducer

namespace TBReducer

/-- C1: the claim says that when the path exists, `overwrite` is true, and the
path matches neither recognized-output shape, the guard raises an
`UnsafeOverwriteError`.  The code instead constructs `ValueError(...)` without
`raise` (write.py line 30), so it returns normally — no error is surfaced and
nothing is deleted.  This theorem evaluates the guard at such an input (an
existing directory whose first child is `data.txt`, with `overwrite = true`)
and shows it returns normally (`proceeded false`: no deletion, no error),
contradicting the claim. -/
theorem c1_guard_silent_on_unrecognized :
    force_rm_or_raise (fsWith "user-data" ⟨true, true, ["data.txt"]⟩)
      "user-data" true = GuardOutcome.proceeded false := by
  decide

/-- C3 (counterexample): the claim quantifies over every call where the path
exists and `overwrite` is false, but when the existing path is an empty
directory the guard raises `IndexError` from `os.listdir(path)[0]` before
reaching the `FileExistsError` branch. -/
theorem c3_counterexample :
    force_rm_or_raise (fsWith "out-dir" ⟨true, true, []⟩) "out-dir" false
        = GuardOutcome.raisedIndexError ∧
      GuardOutcome.raisedIndexError ≠ GuardOutcome.raisedFileExists := by
  exact ⟨rfl, by decide⟩

/-- The guard raises `FileExistsError` whenever the path exists, `overwrite`
is false, and the path is not an empty directory (shared helper). -/
theorem guard_exists_no_overwrite_raises (fs : FileSystem) (path : String)
    (h1 : (fs path).pexists = true)
    (h2 : ¬((fs path).isDir = true ∧ (fs path).children = [])) :
    force_rm_or_raise fs path false = GuardOutcome.raisedFileExists := by
  unfold force_rm_or_raise
  simp only [h1, if_true]
  have hce : ((fs path).isDir && (fs path).children.isEmpty) = false := by
    by_cases hd : (fs path).isDir = true
    · have hne : (fs path).children ≠ [] := fun hc => h2 ⟨hd, hc⟩
      simp [hd, List.isEmpty_iff, hne]
    · simp only [Bool.not_eq_true] at hd
      simp [hd]
  simp [hce]

/-- The guard returns without doing anything when the path does not exist
(shared helper). -/
theorem guard_not_exists (fs : FileSystem) (path : String) (overwrite : Bool)
    (h : (fs path).pexists = false) :
    force_rm_or_raise fs path overwrite = GuardOutcome.proceeded false := by
  unfold force_rm_or_raise
  simp [h]

/-- C3 (amended): for every call where the path exists, `overwrite` is false,
and the path is not an empty directory, the guard fails with
`FileExistsError` (the `AlreadyExistsError` of the spec) and returns through
no deletion branch, so the path is left untouched. -/
theorem c3_guard_already_exists (fs : FileSystem) (path : String)
    (h1 : (fs path).pexists = true)
    (h2 : ¬((fs path).isDir = true ∧ (fs path).children = [])) :
    force_rm_or_raise fs path false = GuardOutcome.raisedFileExists :=
  guard_exists_no_overwrite_raises fs path h1 h2

/-- C3 (witness): the amended theorem applied to a concrete existing non-empty
directory with `overwrite = false`. -/
theorem c3_guard_already_exists_witness :
    force_rm_or_raise (fsWith "run-mean" ⟨true, true, ["events.out.123"]⟩)
      "run-mean" false = GuardOutcome.raisedFileExists :=
  c3_guard_already_exists (fsWith "run-mean" ⟨true, true, ["events.out.123"]⟩)
    "run-mean" (by decide) (by decide)

/-- C9: for every call where the path exists and is an empty directory,
evaluating the heuristic indexes the first element of the empty directory
listing, so the call fails with an out-of-bounds index error for both values
of `overwrite`, reaching neither the `FileExistsError` branch nor the
deletion branch. -/
theorem c9_guard_empty_dir_index_error (fs : FileSystem) (path : String)
    (overwrite : Bool)
    (h1 : (fs path).pexists = true)
    (h2 : (fs path).isDir = true)
    (h3 : (fs path).children = []) :
    force_rm_or_raise fs path overwrite = GuardOutcome.raisedIndexError := by
  unfold force_rm_or_raise
  simp [h1, h2, h3]

/-- Under a fresh filesystem the per-op loop writes every entry in order and
raises nothing (shared helper). -/
theorem writeOps_fresh (fs : FileSystem) (outdir : String) (ow : Bool)
    (hF : freshFS fs) (d : ReducedDataset) :
    writeOps fs outdir ow d = (d.map (mkOpRun outdir), none) := by
  induction d with
  | nil => rfl
  | cons p rest ih =>
    unfold writeOps
    simp only [guard_not_exists fs _ ow (hF _), guardError]
    rw [ih]
    simp [mkOpRun]

/-- Under a fresh filesystem, a dataset holding both "mean" and "std" is
written as the band destination followed by the per-op destinations of the
dataset with "std" removed (shared helper). -/
theorem write_tb_events_fresh_pair (fs : FileSystem) (d : ReducedDataset)
    (outdir : String) (ow : Bool) (hF : freshFS fs)
    (hM : hasOp d "mean" = true) (hS : hasOp d "std" = true) :
    write_tb_events fs d outdir ow =
      ⟨TBRun.mk (outdir ++ "-std") (stdPoints (findOp d "mean") (findOp d "std"))
          :: (removeOp d "std").map (mkOpRun outdir),
        none, removeOp d "std"⟩ := by
  unfold write_tb_events
  rw [hM, hS]
  simp only [Bool.and_self, if_true]
  rw [guard_not_exists fs _ ow (hF _)]
  simp only [guardError]
  rw [writeOps_fresh fs outdir ow hF]

/-- Under a fresh filesystem, a dataset without the mean/std pair is written
op by op, unchanged (shared helper). -/
theorem write_tb_events_fresh_nopair (fs : FileSystem) (d : ReducedDataset)
    (outdir : String) (ow : Bool) (hF : freshFS fs)
    (h : (hasOp d "mean" && hasOp d "std") = false) :
    write_tb_events fs d outdir ow = ⟨d.map (mkOpRun outdir), none, d⟩ := by
  unfold write_tb_events
  rw [h]
  simp only [Bool.false_eq_true, if_false]
  rw [writeOps_fresh fs outdir ow hF]

/-- Removing an op leaves no entry with that op name (shared helper). -/
theorem hasOp_removeOp (d : ReducedDataset) (op : String) :
    hasOp (removeOp d op) op = false := by
  rw [Bool.eq_false_iff]
  intro h
  rcases List.any_eq_true.mp h with ⟨p, hp, heq⟩
  rcases List.mem_filter.mp hp with ⟨_, hne⟩
  exact (bne_iff_ne).mp hne (beq_iff_eq.mp heq)

/-- Removing one op leaves every other op's table unchanged (shared
helper). -/
theorem findOp_removeOp_ne (d : ReducedDataset) (op op' : String)
    (h : op' ≠ op) :
    findOp (removeOp d op) op' = findOp d op' := by
  induction d with
  | nil => rfl
  | cons p rest ih =>
    by_cases hp : p.1 = op
    · have h1 : (p.1 != op) = false := by simp [hp]
      have h2 : (p.1 == op') = false := by
        rw [hp]
        exact beq_eq_false_iff_ne.mpr fun hh => h hh.symm
      rw [removeOp, List.filter_cons, h1]
      simp only [Bool.false_eq_true, if_false]
      rw [show List.filter (fun q => q.1 != op) rest = removeOp rest op from rfl, ih]
      unfold findOp
      rw [List.find?_cons_of_neg]
      simp [h2]
    · have h1 : (p.1 != op) = true := by simp [hp]
      rw [removeOp, List.filter_cons, h1]
      simp only [if_true]
      by_cases hq : p.1 = op'
      · unfold findOp
        rw [List.find?_cons_of_pos _ (by simp [hq]), List.find?_cons_of_pos _ (by simp [hq])]
      · unfold findOp
        rw [List.find?_cons_of_neg _ (by simp [hq]), List.find?_cons_of_neg _ (by simp [hq])]
        exact ih

/-- An op reported present is an entry of the dataset, with `findOp` giving
its table (shared helper). -/
theorem findOp_mem (d : ReducedDataset) (op : String) (h : hasOp d op = true) :
    (op, findOp d op) ∈ d := by
  induction d with
  | nil => simp [hasOp] at h
  | cons p rest ih =>
    by_cases hp : p.1 = op
    · have hfind : findOp (p :: rest) op = p.2 := by
        unfold findOp
        rw [List.find?_cons_of_pos _ (by simp [hp])]
        rfl
      rw [hfind]
      have : (op, p.2) = p := by
        cases p with
        | mk a b => simp at hp; rw [hp]
      rw [this]
      exact List.mem_cons_self _ _
    · have hh : hasOp rest op = true := by
        rcases List.any_eq_true.mp h with ⟨q, hq, hqe⟩
        rcases List.mem_cons.mp hq with rfl | hq'
        · exact absurd (beq_iff_eq.mp hqe) hp
        · exact List.any_eq_true.mpr ⟨q, hq', hqe⟩
      have hfind : findOp (p :: rest) op = findOp rest op := by
        unfold findOp
        rw [List.find?_cons_of_neg _ (by simp [hp])]
      rw [hfind]
      exact List.mem_cons_of_mem _ (ih hh)

/-- Destinations of distinct ops are distinct strings (shared helper). -/
theorem opdir_ne (outdir p1 : String) (h : p1 ≠ "std") :
    outdir ++ "-" ++ p1 ≠ outdir ++ "-std" := by
  intro hEq
  apply h
  apply String.ext
  rw [show ("-std" : String) = "-" ++ "std" from rfl] at hEq
  have hd := congrArg String.data hEq
  simp only [String.data_append] at hd
  rw [← List.append_assoc] at hd
  exact List.append_cancel_left hd

/-- C9 (witness): the theorem applied to a concrete empty directory, for both
values of `overwrite`. -/
theorem c9_guard_empty_dir_index_error_witness :
    force_rm_or_raise (fsWith "out" ⟨true, true, []⟩) "out" true
        = GuardOutcome.raisedIndexError ∧
      force_rm_or_raise (fsWith "out" ⟨true, true, []⟩) "out" false
        = GuardOutcome.raisedIndexError :=
  ⟨c9_guard_empty_dir_index_error (fsWith "out" ⟨true, true, []⟩) "out" true
      (by decide) (by decide) (by decide),
    c9_guard_empty_dir_index_error (fsWith "out" ⟨true, true, []⟩) "out" false
      (by decide) (by decide) (by decide)⟩

/-- C4: when both "mean" and "std" are present, `write_tb_events` removes the
"std" entry from the caller's mapping (pop semantics: the final mapping is
the input with "std" filtered out, so the mutation is visible to callers and
the mapping differs from the input), leaves every other op entry and its tag
table unchanged, and the subsequent per-op loop writes no plain scalar
destination for "std". -/
theorem c4_std_pop_semantics (fs : FileSystem) (d : ReducedDataset)
    (outdir : String) (ow : Bool) (hF : freshFS fs)
    (hM : hasOp d "mean" = true) (hS : hasOp d "std" = true) :
    (write_tb_events fs d outdir ow).finalData = removeOp d "std"
    ∧ hasOp (write_tb_events fs d outdir ow).finalData "std" = false
    ∧ (write_tb_events fs d outdir ow).finalData ≠ d
    ∧ (∀ op, op ≠ "std" →
        findOp (write_tb_events fs d outdir ow).finalData op = findOp d op)
    ∧ (write_tb_events fs d outdir ow).runs
        = TBRun.mk (outdir ++ "-std")
            (stdPoints (findOp d "mean") (findOp d "std"))
          :: (removeOp d "std").map (mkOpRun outdir)
    ∧ (∀ r ∈ (write_tb_events fs d outdir ow).runs.tail,
        r.dir ≠ outdir ++ "-std") := by
  rw [write_tb_events_fresh_pair fs d outdir ow hF hM hS]
  refine ⟨rfl, hasOp_removeOp d "std", ?_, ?_, rfl, ?_⟩
  · show removeOp d "std" ≠ d
    intro hEq
    have hcontra := hasOp_removeOp d "std"
    rw [hEq, hS] at hcontra
    exact absurd hcontra (by decide)
  · intro op hop
    show findOp (removeOp d "std") op = findOp d op
    exact findOp_removeOp_ne d "std" op hop
  · intro r hr
    simp only [List.tail_cons] at hr
    rcases List.mem_map.mp hr with ⟨p, hp, rfl⟩
    have hne : p.1 ≠ "std" := by
      rcases List.mem_filter.mp hp with ⟨_, hb⟩
      exact (bne_iff_ne).mp hb
    exact opdir_ne outdir p.1 hne

/-- C4 (witness): the theorem applied to the concrete aligned mean/std
dataset on a fresh filesystem. -/
theorem c4_std_pop_semantics_witness :
    (write_tb_events emptyFS dsBand "run" false).finalData
        = removeOp dsBand "std"
    ∧ hasOp (write_tb_events emptyFS dsBand "run" false).finalData "std"
        = false
    ∧ (write_tb_events emptyFS dsBand "run" false).finalData ≠ dsBand
    ∧ (∀ op, op ≠ "std" →
        findOp (write_tb_events emptyFS dsBand "run" false).finalData op
          = findOp dsBand op)
    ∧ (write_tb_events emptyFS dsBand "run" false).runs
        = TBRun.mk ("run" ++ "-std")
            (stdPoints (findOp dsBand "mean") (findOp dsBand "std"))
          :: (removeOp dsBand "std").map (mkOpRun "run")
    ∧ (∀ r ∈ (write_tb_events emptyFS dsBand "run" false).runs.tail,
        r.dir ≠ "run" ++ "-std") :=
  c4_std_pop_semantics emptyFS dsBand "run" false (fun _ => rfl)
    (by decide) (by decide)

/-- Tag lookup hits a head entry carrying the looked-up tag (shared
helper). -/
theorem lookupTag_cons_self (q : String × Series) (tt : TagTable) :
    lookupTag (q :: tt) q.1 = q.2 := by
  unfold lookupTag
  rw [List.find?_cons_of_pos _ (by simp)]
  rfl

/-- Tag lookup skips a head entry with a different tag (shared helper). -/
theorem lookupTag_cons_ne (q : String × Series) (tt : TagTable) (tag : String)
    (h : q.1 ≠ tag) :
    lookupTag (q :: tt) tag = lookupTag tt tag := by
  unfold lookupTag
  rw [List.find?_cons_of_neg _ (by simp [h])]

/-- Unfolding of `stdPoints` on two cons cells (shared helper). -/
theorem stdPoints_cons (p q : String × Series) (ps qs : TagTable) :
    stdPoints (p :: ps) (q :: qs) =
      (p.2.zip (q.2.map Prod.snd)).map
        (fun sv => TBPoint.scalars p.1
          [("mean+std", sv.1.2 + sv.2), ("mean-std", sv.1.2 - sv.2)] sv.1.1)
      ++ stdPoints ps qs := by
  unfold stdPoints
  rw [List.map_cons, List.zip_cons_cons, List.flatMap_cons]

/-- Unfolding of `bandSpecPoints` on a cons cell of the mean table (shared
helper). -/
theorem bandSpecPoints_cons (p : String × Series) (ps std_dict : TagTable) :
    bandSpecPoints (p :: ps) std_dict =
      (p.2.zip ((lookupTag std_dict p.1).map Prod.snd)).map
        (fun sv => TBPoint.scalars p.1
          [("mean+std", sv.1.2 + sv.2), ("mean-std", sv.1.2 - sv.2)] sv.1.1)
      ++ bandSpecPoints ps std_dict := by
  unfold bandSpecPoints
  rw [List.flatMap_cons]

/-- A head std entry whose tag is foreign to the mean table does not change
the band points (shared helper). -/
theorem bandSpecPoints_cons_ne (ps : TagTable) (q : String × Series)
    (qs : TagTable) (h : ∀ ts ∈ ps, ts.1 ≠ q.1) :
    bandSpecPoints ps (q :: qs) = bandSpecPoints ps qs := by
  induction ps with
  | nil => rfl
  | cons t ts ih =>
    rw [bandSpecPoints_cons, bandSpecPoints_cons]
    have ht : q.1 ≠ t.1 := fun hh => h t (List.mem_cons_self t ts) hh.symm
    rw [lookupTag_cons_ne q qs t.1 ht,
      ih (fun x hx => h x (List.mem_cons_of_mem t hx))]

/-- The positional mean/std pairing of the code coincides with the spec's
same-tag pairing whenever the two tag lists are equal and the mean tags are
unique (shared helper). -/
theorem stdPoints_eq_bandSpecPoints (mean_dict std_dict : TagTable)
    (hTags : mean_dict.map Prod.fst = std_dict.map Prod.fst)
    (hN : (mean_dict.map Prod.fst).Nodup) :
    stdPoints mean_dict std_dict = bandSpecPoints mean_dict std_dict := by
  induction mean_dict generalizing std_dict with
  | nil =>
    cases std_dict with
    | nil => rfl
    | cons q qs => simp at hTags
  | cons p ps ih =>
    cases std_dict with
    | nil => simp at hTags
    | cons q qs =>
      simp only [List.map_cons, List.cons.injEq] at hTags
      obtain ⟨h1, h2⟩ := hTags
      simp only [List.map_cons] at hN
      have hN' := List.nodup_cons.mp hN
      rw [stdPoints_cons, bandSpecPoints_cons]
      have hfor : ∀ ts ∈ ps, ts.1 ≠ q.1 := by
        intro ts hts heq
        apply hN'.1
        rw [← h1] at heq
        exact heq ▸ List.mem_map_of_mem Prod.fst hts
      rw [bandSpecPoints_cons_ne ps q qs hfor]
      rw [show lookupTag (q :: qs) p.1 = q.2 from by
        rw [h1]; exact lookupTag_cons_self q qs]
      rw [ih qs h2 hN'.2]

/-- When the step key lists of two series agree and are duplicate-free, every
(step, value) pair of the first series is paired positionally with the value
the second series holds at the SAME step (shared helper). -/
theorem lookupStep_of_aligned (ms ss : Series)
    (h : ms.map Prod.fst = ss.map Prod.fst)
    (hnd : (ms.map Prod.fst).Nodup) :
    ∀ sv ∈ ms, ∃ sd, lookupStep ss sv.1 = some sd
      ∧ (sv, sd) ∈ ms.zip (ss.map Prod.snd) := by
  induction ms generalizing ss with
  | nil => intro sv hsv; cases hsv
  | cons m mr ih =>
    cases ss with
    | nil => simp at h
    | cons s sr =>
      simp only [List.map_cons, List.cons.injEq] at h
      obtain ⟨h1, h2⟩ := h
      simp only [List.map_cons] at hnd
      have hnd' := List.nodup_cons.mp hnd
      intro sv hsv
      rcases List.mem_cons.mp hsv with rfl | hsv'
      · refine ⟨s.2, ?_, ?_⟩
        · unfold lookupStep
          rw [List.find?_cons_of_pos _ (by simp [h1])]
          rfl
        · rw [List.map_cons, List.zip_cons_cons]
          exact List.mem_cons_self _ _
      · have hne : sv.1 ≠ m.1 := by
          intro hh
          exact hnd'.1 (hh ▸ List.mem_map_of_mem Prod.fst hsv')
        obtain ⟨sd, hsd1, hsd2⟩ := ih sr h2 hnd'.2 sv hsv'
        refine ⟨sd, ?_, ?_⟩
        · unfold lookupStep at hsd1 ⊢
          rw [List.find?_cons_of_neg _ ?_]
          · exact hsd1
          · simp only [beq_iff_eq, ← h1]
            exact fun hh => hne hh.symm
        · rw [List.map_cons, List.zip_cons_cons]
          exact List.mem_cons_of_mem _ hsd2

/-- C2 (amended): for datasets holding both "mean" and "std" whose tag lists
are identical (same tags, same insertion order) with unique tags, and whose
step sequences agree per tag, `write_tb_events` writes the `-std`
destination first, carrying exactly the band points of the spec: for every
tag of the mean table and every (step, mean value) of its series there is a
record with exactly the two values mean+std and mean−std, where the std
value is the one the std series OF THE SAME TAG holds at the same step; and
the `-mean` destination carries the original mean values unchanged. -/
theorem c2_band_same_tag (fs : FileSystem) (d : ReducedDataset)
    (outdir : String) (ow : Bool) (hF : freshFS fs)
    (hM : hasOp d "mean" = true) (hS : hasOp d "std" = true)
    (hTags : (findOp d "mean").map Prod.fst = (findOp d "std").map Prod.fst)
    (hN : ((findOp d "mean").map Prod.fst).Nodup)
    (hSteps : ∀ ts ∈ findOp d "mean",
        ts.2.map Prod.fst = (lookupTag (findOp d "std") ts.1).map Prod.fst)
    (hStepN : ∀ ts ∈ findOp d "mean", (ts.2.map Prod.fst).Nodup) :
    (write_tb_events fs d outdir ow).runs.head?
        = some (TBRun.mk (outdir ++ "-std")
            (bandSpecPoints (findOp d "mean") (findOp d "std")))
    ∧ (∀ ts ∈ findOp d "mean", ∀ sv ∈ ts.2, ∃ sd,
        lookupStep (lookupTag (findOp d "std") ts.1) sv.1 = some sd
        ∧ TBPoint.scalars ts.1
            [("mean+std", sv.2 + sd), ("mean-std", sv.2 - sd)] sv.1
          ∈ bandSpecPoints (findOp d "mean") (findOp d "std"))
    ∧ TBRun.mk (outdir ++ "-" ++ "mean") (scalarPoints (findOp d "mean"))
        ∈ (write_tb_events fs d outdir ow).runs := by
  rw [write_tb_events_fresh_pair fs d outdir ow hF hM hS]
  refine ⟨?_, ?_, ?_⟩
  · show some _ = some _
    rw [stdPoints_eq_bandSpecPoints _ _ hTags hN]
  · intro ts hts sv hsv
    obtain ⟨sd, hsd1, hsd2⟩ :=
      lookupStep_of_aligned ts.2 (lookupTag (findOp d "std") ts.1)
        (hSteps ts hts) (hStepN ts hts) sv hsv
    refine ⟨sd, hsd1, ?_⟩
    unfold bandSpecPoints
    rw [List.mem_flatMap]
    exact ⟨ts, hts, List.mem_map_of_mem _ hsd2⟩
  · apply List.mem_cons_of_mem
    have hmem2 : ("mean", findOp d "mean") ∈ removeOp d "std" :=
      List.mem_filter.mpr ⟨findOp_mem d "mean" hM, rfl⟩
    exact List.mem_map_of_mem (mkOpRun outdir) hmem2

/-- C2 (witness): the amended theorem applied to the concrete aligned
mean/std dataset on a fresh filesystem. -/
theorem c2_band_same_tag_witness :
    (write_tb_events emptyFS dsBand "run" false).runs.head?
        = some (TBRun.mk ("run" ++ "-std")
            (bandSpecPoints (findOp dsBand "mean") (findOp dsBand "std")))
    ∧ (∀ ts ∈ findOp dsBand "mean", ∀ sv ∈ ts.2, ∃ sd,
        lookupStep (lookupTag (findOp dsBand "std") ts.1) sv.1 = some sd
        ∧ TBPoint.scalars ts.1
            [("mean+std", sv.2 + sd), ("mean-std", sv.2 - sd)] sv.1
          ∈ bandSpecPoints (findOp dsBand "mean") (findOp dsBand "std"))
    ∧ TBRun.mk ("run" ++ "-" ++ "mean") (scalarPoints (findOp dsBand "mean"))
        ∈ (write_tb_events emptyFS dsBand "run" false).runs :=
  c2_band_same_tag emptyFS dsBand "run" false (fun _ => rfl)
    (by decide) (by decide) (by decide) (by decide) (by decide) (by decide)

/-- C2 (counterexample): the claim as stated only requires the mean and std
tables to hold identical tag SETS; in `dsSwap` they hold tags {a, b} in
swapped insertion orders, with identical step sequences per tag, yet the
`-std` destination pairs tag "a" (mean 1) with tag "b"'s std series (3),
emitting 4 and -2 instead of the claim's same-tag values 6 = 1 + 5 and
-4 = 1 - 5. -/
theorem c2_counterexample :
    hasOp dsSwap "mean" = true ∧ hasOp dsSwap "std" = true
    ∧ ((findOp dsSwap "mean").map Prod.fst).toFinset
        = ((findOp dsSwap "std").map Prod.fst).toFinset
    ∧ (lookupTag (findOp dsSwap "mean") "a").map Prod.fst
        = (lookupTag (findOp dsSwap "std") "a").map Prod.fst
    ∧ (lookupTag (findOp dsSwap "mean") "b").map Prod.fst
        = (lookupTag (findOp dsSwap "std") "b").map Prod.fst
    ∧ ((write_tb_events emptyFS dsSwap "run" false).runs.headD
        (TBRun.mk "" [])).dir = "run" ++ "-std"
    ∧ TBPoint.scalars "a" [("mean+std", 6), ("mean-std", -4)] 0
        ∉ ((write_tb_events emptyFS dsSwap "run" false).runs.headD
            (TBRun.mk "" [])).points
    ∧ TBPoint.scalars "a" [("mean+std", 4), ("mean-std", -2)] 0
        ∈ ((write_tb_events emptyFS dsSwap "run" false).runs.headD
            (TBRun.mk "" [])).points := by
  decide

/-- Membership characterization of the plain scalar points (shared
helper). -/
theorem mem_scalarPoints {tt : TagTable} {pt : TBPoint} :
    pt ∈ scalarPoints tt
      ↔ ∃ ts ∈ tt, ∃ sv ∈ ts.2, TBPoint.scalar ts.1 sv.2 sv.1 = pt := by
  unfold scalarPoints
  rw [List.mem_flatMap]
  constructor
  · rintro ⟨ts, hts, hpt⟩
    rcases List.mem_map.mp hpt with ⟨sv, hsv, rfl⟩
    exact ⟨ts, hts, sv, hsv, rfl⟩
  · rintro ⟨ts, hts, sv, hsv, rfl⟩
    exact ⟨ts, hts, List.mem_map_of_mem _ hsv⟩

/-- A strictly increasing step list is a `<`-chain (shared helper). -/
theorem stepsIncreasing_chain :
    ∀ l : List Int, stepsIncreasing l = true → List.Chain' (· < ·) l
  | [], _ => List.chain'_nil
  | [a], _ => List.chain'_singleton a
  | a :: b :: rest, h => by
    unfold stepsIncreasing at h
    rw [Bool.and_eq_true, decide_eq_true_iff] at h
    exact List.Chain'.cons h.1 (stepsIncreasing_chain (b :: rest) h.2)

/-- A strictly increasing step list has no duplicates (shared helper). -/
theorem stepsIncreasing_nodup (l : List Int)
    (h : stepsIncreasing l = true) : l.Nodup := by
  have hc := stepsIncreasing_chain l h
  rw [List.chain'_iff_pairwise] at hc
  exact hc.imp (fun hlt => ne_of_lt hlt)

/-- Unfolding of `scalarPoints` on a cons cell (shared helper). -/
theorem scalarPoints_cons (t : String × Series) (rest : TagTable) :
    scalarPoints (t :: rest)
      = t.2.map (fun sv => TBPoint.scalar t.1 sv.2 sv.1)
        ++ scalarPoints rest := by
  unfold scalarPoints
  rw [List.flatMap_cons]

/-- Each (tag, step) pair yields exactly one point per destination, provided
tags are unique and steps within each series are unique (shared helper). -/
theorem count_scalarPoints (tt : TagTable)
    (hN : (tt.map Prod.fst).Nodup)
    (hsteps : ∀ ts ∈ tt, (ts.2.map Prod.fst).Nodup) :
    ∀ ts ∈ tt, ∀ sv ∈ ts.2,
      (scalarPoints tt).count (TBPoint.scalar ts.1 sv.2 sv.1) = 1 := by
  induction tt with
  | nil => intro ts hts; cases hts
  | cons t rest ih =>
    intro ts hts sv hsv
    rw [scalarPoints_cons, List.count_append]
    simp only [List.map_cons] at hN
    have hN' := List.nodup_cons.mp hN
    rcases List.mem_cons.mp hts with rfl | hts'
    · have hinj : Function.Injective
          (fun sv : Int × Val => TBPoint.scalar ts.1 sv.2 sv.1) := by
        intro x y hxy
        cases x
        cases y
        injection hxy with h1 h2 h3
        simp only [Prod.mk.injEq]
        exact ⟨h3, h2⟩
      have hcount1 : (ts.2.map
            (fun sv => TBPoint.scalar ts.1 sv.2 sv.1)).count
          (TBPoint.scalar ts.1 sv.2 sv.1) = 1 := by
        rw [show TBPoint.scalar ts.1 sv.2 sv.1
            = (fun sv : Int × Val => TBPoint.scalar ts.1 sv.2 sv.1) sv from rfl,
          List.count_map_of_injective _ _ hinj]
        exact List.count_eq_one_of_mem
          (List.Nodup.of_map Prod.fst (hsteps ts hts)) hsv
      have hcount0 : (scalarPoints rest).count
          (TBPoint.scalar ts.1 sv.2 sv.1) = 0 := by
        rw [List.count_eq_zero]
        intro hc
        rcases mem_scalarPoints.mp hc with ⟨ts', hts', sv', hsv', hEq⟩
        simp only [TBPoint.scalar.injEq] at hEq
        exact hN'.1 (hEq.1 ▸ List.mem_map_of_mem Prod.fst hts')
      rw [hcount1, hcount0]
    · have hne : t.1 ≠ ts.1 := by
        intro hh
        exact hN'.1 (hh ▸ List.mem_map_of_mem Prod.fst hts')
      have hcount0 : (t.2.map
            (fun sv => TBPoint.scalar t.1 sv.2 sv.1)).count
          (TBPoint.scalar ts.1 sv.2 sv.1) = 0 := by
        rw [List.count_eq_zero]
        intro hc
        rcases List.mem_map.mp hc with ⟨sv', _, hEq⟩
        simp only [TBPoint.scalar.injEq] at hEq
        exact hne hEq.1
      have hrest := ih hN'.2
        (fun x hx => hsteps x (List.mem_cons_of_mem t hx)) ts hts' sv hsv
      rw [hcount0, hrest]

/-- C5: under a fresh filesystem every operation remaining in the dataset
(all of them when the mean/std pair is absent, all but the popped "std"
otherwise) gets one destination named `outdir ++ "-" ++ op` whose points are
exactly the verbatim (tag, step, value) points: each (tag, step) appears
exactly once (under the dict invariants), no other points occur, each tag's
block is contiguous with strictly increasing steps, and a dataset holding
only "mean" yields exactly the one destination `outdir ++ "-mean"`. -/
theorem c5_plain_scalar_destinations (fs : FileSystem) (d : ReducedDataset)
    (outdir : String) (ow : Bool) (hF : freshFS fs)
    (hTagN : ∀ p ∈ d, ((p.2.map Prod.fst)).Nodup)
    (hStepI : ∀ p ∈ d, ∀ ts ∈ p.2, stepsIncreasing (ts.2.map Prod.fst) = true) :
    (write_tb_events fs d outdir ow).error = none
    ∧ (∀ p ∈ (write_tb_events fs d outdir ow).finalData,
        mkOpRun outdir p ∈ (write_tb_events fs d outdir ow).runs)
    ∧ (∀ p ∈ (write_tb_events fs d outdir ow).finalData, ∀ ts ∈ p.2,
        ∀ sv ∈ ts.2,
        (scalarPoints p.2).count (TBPoint.scalar ts.1 sv.2 sv.1) = 1)
    ∧ (∀ p ∈ (write_tb_events fs d outdir ow).finalData,
        ∀ pt ∈ scalarPoints p.2,
        ∃ ts ∈ p.2, ∃ sv ∈ ts.2, TBPoint.scalar ts.1 sv.2 sv.1 = pt)
    ∧ (∀ p ∈ (write_tb_events fs d outdir ow).finalData, ∀ ts ∈ p.2,
        List.Chain' (fun a b => stepOf a < stepOf b)
          (ts.2.map fun sv => TBPoint.scalar ts.1 sv.2 sv.1))
    ∧ (∀ tt, d = [("mean", tt)] →
        (write_tb_events fs d outdir ow).runs
          = [TBRun.mk (outdir ++ "-" ++ "mean") (scalarPoints tt)]) := by
  by_cases hPair : (hasOp d "mean" && hasOp d "std") = true
  · rw [Bool.and_eq_true] at hPair
    obtain ⟨hM, hS⟩ := hPair
    rw [write_tb_events_fresh_pair fs d outdir ow hF hM hS]
    have hsub : ∀ p ∈ removeOp d "std", p ∈ d :=
      fun p hp => (List.mem_filter.mp hp).1
    refine ⟨rfl, ?_, ?_, ?_, ?_, ?_⟩
    · intro p hp
      exact List.mem_cons_of_mem _ (List.mem_map_of_mem _ hp)
    · intro p hp ts hts sv hsv
      exact count_scalarPoints p.2 (hTagN p (hsub p hp))
        (fun x hx => stepsIncreasing_nodup _ (hStepI p (hsub p hp) x hx))
        ts hts sv hsv
    · intro p hp pt hpt
      exact mem_scalarPoints.mp hpt
    · intro p hp ts hts
      have h1 := stepsIncreasing_chain _ (hStepI p (hsub p hp) ts hts)
      rw [List.chain'_map] at h1
      rw [List.chain'_map]
      exact List.Chain'.imp (fun a b hab => hab) h1
    · intro tt hEq
      subst hEq
      have : hasOp [("mean", tt)] "std" = false := rfl
      rw [this] at hS
      exact absurd hS (by decide)
  · have hPair' : (hasOp d "mean" && hasOp d "std") = false :=
      Bool.eq_false_iff.mpr hPair
    rw [write_tb_events_fresh_nopair fs d outdir ow hF hPair']
    refine ⟨rfl, ?_, ?_, ?_, ?_, ?_⟩
    · intro p hp
      exact List.mem_map_of_mem _ hp
    · intro p hp ts hts sv hsv
      exact count_scalarPoints p.2 (hTagN p hp)
        (fun x hx => stepsIncreasing_nodup _ (hStepI p hp x hx))
        ts hts sv hsv
    · intro p hp pt hpt
      exact mem_scalarPoints.mp hpt
    · intro p hp ts hts
      have h1 := stepsIncreasing_chain _ (hStepI p hp ts hts)
      rw [List.chain'_map] at h1
      rw [List.chain'_map]
      exact List.Chain'.imp (fun a b hab => hab) h1
    · intro tt hEq
      subst hEq
      rfl

/-- C5 (witness): the theorem applied to the concrete single-op dataset on a
fresh filesystem. -/
theorem c5_plain_scalar_destinations_witness :
    (write_tb_events emptyFS dsMeanOnly "run" false).error = none
    ∧ (∀ p ∈ (write_tb_events emptyFS dsMeanOnly "run" false).finalData,
        mkOpRun "run" p ∈ (write_tb_events emptyFS dsMeanOnly "run" false).runs)
    ∧ (∀ p ∈ (write_tb_events emptyFS dsMeanOnly "run" false).finalData,
        ∀ ts ∈ p.2, ∀ sv ∈ ts.2,
        (scalarPoints p.2).count (TBPoint.scalar ts.1 sv.2 sv.1) = 1)
    ∧ (∀ p ∈ (write_tb_events emptyFS dsMeanOnly "run" false).finalData,
        ∀ pt ∈ scalarPoints p.2,
        ∃ ts ∈ p.2, ∃ sv ∈ ts.2, TBPoint.scalar ts.1 sv.2 sv.1 = pt)
    ∧ (∀ p ∈ (write_tb_events emptyFS dsMeanOnly "run" false).finalData,
        ∀ ts ∈ p.2,
        List.Chain' (fun a b => stepOf a < stepOf b)
          (ts.2.map fun sv => TBPoint.scalar ts.1 sv.2 sv.1))
    ∧ (∀ tt, dsMeanOnly = [("mean", tt)] →
        (write_tb_events emptyFS dsMeanOnly "run" false).runs
          = [TBRun.mk ("run" ++ "-" ++ "mean") (scalarPoints tt)]) :=
  c5_plain_scalar_destinations emptyFS dsMeanOnly "run" false (fun _ => rfl)
    (by decide) (by decide)

/-- C10: "std" is popped from the caller's mapping before the guard runs on
the `-std` destination; when that guard then raises `FileExistsError` (the
destination exists, `overwrite` is false, and the destination is not an
empty directory), the call aborts with the mapping already mutated — "std"
is gone and the mapping is not the one the caller passed in. -/
theorem c10_pop_precedes_guard (fs : FileSystem) (d : ReducedDataset)
    (outdir : String)
    (hM : hasOp d "mean" = true) (hS : hasOp d "std" = true)
    (hEx : (fs (outdir ++ "-std")).pexists = true)
    (hNE : ¬((fs (outdir ++ "-std")).isDir = true
        ∧ (fs (outdir ++ "-std")).children = [])) :
    (write_tb_events fs d outdir false).error
        = some (WriteError.alreadyExists (outdir ++ "-std"))
    ∧ (write_tb_events fs d outdir false).runs = []
    ∧ (write_tb_events fs d outdir false).finalData = removeOp d "std"
    ∧ hasOp (write_tb_events fs d outdir false).finalData "std" = false
    ∧ (write_tb_events fs d outdir false).finalData ≠ d := by
  have hg := guard_exists_no_overwrite_raises fs (outdir ++ "-std") hEx hNE
  have hw : write_tb_events fs d outdir false =
      ⟨[], some (WriteError.alreadyExists (outdir ++ "-std")),
        removeOp d "std"⟩ := by
    unfold write_tb_events
    rw [hM, hS]
    simp only [Bool.and_self, if_true]
    simp only [hg, guardError]
  rw [hw]
  refine ⟨rfl, rfl, rfl, hasOp_removeOp d "std", ?_⟩
  show removeOp d "std" ≠ d
  intro hEq
  have hcontra := hasOp_removeOp d "std"
  rw [hEq, hS] at hcontra
  exact absurd hcontra (by decide)

/-- C10 (witness): the theorem applied to the concrete aligned mean/std
dataset, with the `-std` destination already existing as a non-empty
directory and `overwrite = false`. -/
theorem c10_pop_precedes_guard_witness :
    (write_tb_events (fsWith "run-std" ⟨true, true, ["events.out.7"]⟩)
        dsBand "run" false).error
      = some (WriteError.alreadyExists ("run" ++ "-std"))
    ∧ (write_tb_events (fsWith "run-std" ⟨true, true, ["events.out.7"]⟩)
        dsBand "run" false).runs = []
    ∧ (write_tb_events (fsWith "run-std" ⟨true, true, ["events.out.7"]⟩)
        dsBand "run" false).finalData = removeOp dsBand "std"
    ∧ hasOp (write_tb_events (fsWith "run-std" ⟨true, true, ["events.out.7"]⟩)
        dsBand "run" false).finalData "std" = false
    ∧ (write_tb_events (fsWith "run-std" ⟨true, true, ["events.out.7"]⟩)
        dsBand "run" false).finalData ≠ dsBand :=
  c10_pop_precedes_guard (fsWith "run-std" ⟨true, true, ["events.out.7"]⟩)
    dsBand "run" (by decide) (by decide) (by decide) (by decide)

/-- C8: a `write_csv` call whose path does not end in ".csv" fails with the
assertion error (the spec's `InvalidArgumentError`) for every filesystem,
dataset and overwrite flag: the outcome is fixed before the guard or any
write could run, and depends on neither the filesystem nor the dataset. -/
theorem c8_csv_extension_assert (fs : FileSystem) (d : ReducedDataset)
    (csv_path : String) (ow : Bool)
    (h : strEndsWith csv_path ".csv" = false) :
    write_csv fs d csv_path ow = CsvOutcome.assertionError := by
  unfold write_csv
  simp [h]

/-- C8 (witness): the theorem applied to a path with the wrong extension
whose destination already exists as an empty directory (an input on which
the guard, had it run first, would itself have raised). -/
theorem c8_csv_extension_assert_witness :
    write_csv (fsWith "out.txt" ⟨true, true, []⟩) dsCsv "out.txt" true
      = CsvOutcome.assertionError :=
  c8_csv_extension_assert (fsWith "out.txt" ⟨true, true, []⟩) dsCsv
    "out.txt" true (by decide)

/-- Membership in a sorted insertion (shared helper). -/
theorem mem_insertStep {y x : Int} {l : List Int} :
    y ∈ insertStep x l ↔ y = x ∨ y ∈ l := by
  induction l with
  | nil => simp [insertStep]
  | cons a l ih =>
    unfold insertStep
    split_ifs with h1 h2
    · simp only [List.mem_cons]
    · subst h2
      simp only [List.mem_cons]
      tauto
    · simp only [List.mem_cons, ih]
      tauto

/-- The head of a sorted insertion is the new key or the old head (shared
helper). -/
theorem insertStep_head (x : Int) (l : List Int) :
    (insertStep x l).head? = some x ∨ (insertStep x l).head? = l.head? := by
  cases l with
  | nil => left; rfl
  | cons b m =>
    unfold insertStep
    by_cases h1 : x < b
    · left; simp [h1]
    · by_cases h2 : x = b
      · right; simp [h1, h2]
      · right; simp [h1, h2]

/-- Sorted insertion preserves strictly increasing chains (shared helper). -/
theorem chain_insertStep {x : Int} :
    ∀ {l : List Int}, List.Chain' (· < ·) l →
      List.Chain' (· < ·) (insertStep x l) := by
  intro l
  induction l with
  | nil => intro _; exact List.chain'_singleton x
  | cons a l ih =>
    intro h
    unfold insertStep
    by_cases h1 : x < a
    · simp only [if_pos h1]
      exact List.Chain'.cons h1 h
    · by_cases h2 : x = a
      · simp only [if_neg h1, if_pos h2]
        exact h
      · simp only [if_neg h1, if_neg h2]
        have hax : a < x := by omega
        rw [List.chain'_cons']
        constructor
        · intro y hy
          rcases insertStep_head x l with hh | hh
          · rw [hh] at hy
            simp only [Option.mem_def, Option.some.injEq] at hy
            omega
          · rw [hh] at hy
            exact (List.chain'_cons'.mp h).1 y hy
        · exact ih (List.chain'_cons'.mp h).2

/-- The fold of sorted insertions is a strictly increasing chain (shared
helper). -/
theorem chain_foldr_insert (xs : List Int) :
    List.Chain' (· < ·) (xs.foldr insertStep []) := by
  induction xs with
  | nil => exact List.chain'_nil
  | cons a xs ih => exact chain_insertStep ih

/-- The fold of sorted insertions holds exactly the folded keys (shared
helper). -/
theorem mem_foldr_insert {y : Int} (xs : List Int) :
    y ∈ xs.foldr insertStep [] ↔ y ∈ xs := by
  induction xs with
  | nil => simp
  | cons a xs ih =>
    simp only [List.foldr_cons, mem_insertStep, ih, List.mem_cons]

/-- The row index of the built table is strictly increasing (shared
helper). -/
theorem allSteps_chain (d : ReducedDataset) :
    List.Chain' (· < ·) (allSteps d) :=
  chain_foldr_insert (dsSteps d)

/-- The row index of the built table holds exactly the dataset's steps
(shared helper). -/
theorem mem_allSteps {st : Int} (d : ReducedDataset) :
    st ∈ allSteps d ↔ st ∈ dsSteps d :=
  mem_foldr_insert (dsSteps d)

/-- Every step of every series appears in the built row index (shared
helper). -/
theorem steps_mem_allSteps (d : ReducedDataset) (p : String × TagTable)
    (hp : p ∈ d) (ts : String × Series) (hts : ts ∈ p.2)
    (sv : Int × Val) (hsv : sv ∈ ts.2) :
    sv.1 ∈ allSteps d := by
  rw [mem_allSteps]
  unfold dsSteps
  rw [List.mem_flatMap]
  exact ⟨p, hp, List.mem_flatMap.mpr ⟨ts, hts, List.mem_map_of_mem _ hsv⟩⟩

/-- A step absent from a series yields an empty cell (shared helper). -/
theorem lookupStep_eq_none (s : Series) (st : Int)
    (h : st ∉ s.map Prod.fst) : lookupStep s st = none := by
  unfold lookupStep
  rw [List.find?_eq_none.mpr ?_]
  · rfl
  · intro sv hsv hbeq
    exact h (beq_iff_eq.mp hbeq ▸ List.mem_map_of_mem Prod.fst hsv)

/-- A step present in a duplicate-free series yields its value (shared
helper). -/
theorem lookupStep_mem :
    ∀ (s : Series), (s.map Prod.fst).Nodup →
      ∀ sv ∈ s, lookupStep s sv.1 = some sv.2
  | [], _, sv, hsv => absurd hsv (List.not_mem_nil sv)
  | a :: l, hnd, sv, hsv => by
    simp only [List.map_cons] at hnd
    have hnd' := List.nodup_cons.mp hnd
    rcases List.mem_cons.mp hsv with rfl | hmem
    · unfold lookupStep
      rw [List.find?_cons_of_pos _ (by simp)]
      rfl
    · have hne : a.1 ≠ sv.1 := by
        intro hh
        exact hnd'.1 (hh ▸ List.mem_map_of_mem Prod.fst hmem)
      unfold lookupStep
      rw [List.find?_cons_of_neg _ (by simp [hne])]
      exact lookupStep_mem l hnd'.2 sv hmem

/-- Extracting, along a strictly increasing index covering a strictly
increasing series, the non-empty lookups reproduces the series (shared
helper). -/
theorem filterMap_lookup_sorted (op tag : String) :
    ∀ (ix : List Int) (s : Series),
      List.Chain' (· < ·) ix → List.Chain' (· < ·) (s.map Prod.fst) →
      (∀ sv ∈ s, sv.1 ∈ ix) →
      ix.filterMap (fun st => (lookupStep s st).map fun v => (op, tag, st, v))
        = s.map fun sv => (op, tag, sv.1, sv.2)
  | [], s, _, _, hsub => by
    cases s with
    | nil => rfl
    | cons sv ss =>
      exact absurd (hsub sv (List.mem_cons_self sv ss)) (List.not_mem_nil _)
  | i :: ix, s, hix, hs, hsub => by
    cases s with
    | nil =>
      rw [List.filterMap_eq_nil_iff.mpr ?_, List.map_nil]
      intro a _
      rfl
    | cons sv ss =>
      have hhead_ix := (List.pairwise_cons.mp (List.chain'_iff_pairwise.mp hix)).1
      simp only [List.map_cons] at hs
      have hhead_s := (List.pairwise_cons.mp (List.chain'_iff_pairwise.mp hs)).1
      by_cases hi : sv.1 = i
      · have h1 : lookupStep (sv :: ss) i = some sv.2 := by
          unfold lookupStep
          rw [List.find?_cons_of_pos _ (by simp [hi])]
          rfl
        have hcongr : ix.filterMap
              (fun st => (lookupStep (sv :: ss) st).map fun v => (op, tag, st, v))
            = ix.filterMap
              (fun st => (lookupStep ss st).map fun v => (op, tag, st, v)) := by
          apply List.filterMap_congr
          intro st hst
          have hlt := hhead_ix st hst
          have hne : ¬(sv.1 = st) := by omega
          unfold lookupStep
          rw [List.find?_cons_of_neg _ (by simp [hne])]
        simp only [List.filterMap_cons, h1, Option.map_some']
        rw [hcongr, List.map_cons, hi]
        congr 1
        exact filterMap_lookup_sorted op tag ix ss hix.tail hs.tail
          (fun sv2 hsv2 => by
            have hmem := hsub sv2 (List.mem_cons_of_mem sv hsv2)
            have hgt := hhead_s sv2.1 (List.mem_map_of_mem Prod.fst hsv2)
            rcases List.mem_cons.mp hmem with h' | h'
            · omega
            · exact h')
      · have hsv1 : sv.1 ∈ ix := by
          rcases List.mem_cons.mp (hsub sv (List.mem_cons_self sv ss)) with h' | h'
          · exact absurd h' hi
          · exact h'
        have hlt : i < sv.1 := hhead_ix sv.1 hsv1
        have hnone : lookupStep (sv :: ss) i = none := by
          refine lookupStep_eq_none _ _ ?_
          simp only [List.map_cons, List.mem_cons]
          rintro (h' | h')
          · omega
          · have := hhead_s i h'
            omega
        simp only [List.filterMap_cons, hnone, Option.map_none']
        exact filterMap_lookup_sorted op tag ix (sv :: ss) hix.tail
          (by simp only [List.map_cons]; exact hs)
          (fun sv2 hsv2 => by
            have hmem := hsub sv2 hsv2
            rcases List.mem_cons.mp hmem with h' | h'
            · exfalso
              rcases List.mem_cons.mp hsv2 with rfl | h2
              · omega
              · have := hhead_s sv2.1 (List.mem_map_of_mem Prod.fst h2)
                omega
            · exact h')

/-- The columns of the built table, unfolded (shared helper). -/
theorem write_csv_table_cols (d : ReducedDataset) :
    (write_csv_table d).cols
      = d.flatMap fun p => p.2.map fun ts =>
          ((ts.1, p.1), (allSteps d).map (lookupStep ts.2)) := by
  unfold write_csv_table setIndexStep swaplevel concat_tables
  simp only [List.map_flatMap, List.map_map]
  rfl

/-- Zipping an index with its own lookups pairs each step with its cell
(shared helper). -/
theorem zip_index_map (ix : List Int) (s : Series) :
    ix.zip (ix.map (lookupStep s)) = ix.map fun st => (st, lookupStep s st) := by
  induction ix with
  | nil => rfl
  | cons i ix ih =>
    rw [List.map_cons, List.zip_cons_cons, ih, List.map_cons]

/-- C6: the table built by `write_csv` has columns addressed by (tag, op)
compound keys obtained by swapping the levels of the (op, tag) concat keys,
rows indexed by the sorted union of all steps with the index named "step",
and the outer join fills each cell from its series by step — a present step
yields its value, an absent step yields an empty cell rather than an
error. -/
theorem c6_table_shape (d : ReducedDataset)
    (hStepK : ∀ p ∈ d, ∀ ts ∈ p.2,
      stepsIncreasing (ts.2.map Prod.fst) = true) :
    (write_csv_table d).indexName = "step"
    ∧ (write_csv_table d).cols.map Prod.fst
        = ((concat_tables d).cols.map Prod.fst).map Prod.swap
    ∧ (concat_tables d).cols.map Prod.fst
        = d.flatMap (fun p => p.2.map fun ts => (p.1, ts.1))
    ∧ (write_csv_table d).index = allSteps d
    ∧ List.Chain' (· < ·) (write_csv_table d).index
    ∧ (∀ p ∈ d, ∀ ts ∈ p.2,
        ((ts.1, p.1), (allSteps d).map (lookupStep ts.2))
          ∈ (write_csv_table d).cols)
    ∧ (∀ p ∈ d, ∀ ts ∈ p.2, ∀ sv ∈ ts.2,
        sv.1 ∈ (write_csv_table d).index
        ∧ lookupStep ts.2 sv.1 = some sv.2)
    ∧ (∀ s : Series, ∀ st : Int,
        st ∉ s.map Prod.fst → lookupStep s st = none) := by
  refine ⟨rfl, ?_, ?_, rfl, allSteps_chain d, ?_, ?_, ?_⟩
  · unfold write_csv_table setIndexStep swaplevel
    simp only [List.map_map]
    rfl
  · unfold concat_tables
    simp only [List.map_flatMap, List.map_map]
    rfl
  · intro p hp ts hts
    rw [write_csv_table_cols]
    exact List.mem_flatMap.mpr ⟨p, hp, List.mem_map_of_mem _ hts⟩
  · intro p hp ts hts sv hsv
    exact ⟨steps_mem_allSteps d p hp ts hts sv hsv,
      lookupStep_mem ts.2
        (stepsIncreasing_nodup _ (hStepK p hp ts hts)) sv hsv⟩
  · intro s st h
    exact lookupStep_eq_none s st h

/-- C6 (witness): the theorem applied to the concrete two-op dataset with
differing step sets. -/
theorem c6_table_shape_witness :
    (write_csv_table dsCsv).indexName = "step"
    ∧ (write_csv_table dsCsv).cols.map Prod.fst
        = ((concat_tables dsCsv).cols.map Prod.fst).map Prod.swap
    ∧ (concat_tables dsCsv).cols.map Prod.fst
        = dsCsv.flatMap (fun p => p.2.map fun ts => (p.1, ts.1))
    ∧ (write_csv_table dsCsv).index = allSteps dsCsv
    ∧ List.Chain' (· < ·) (write_csv_table dsCsv).index
    ∧ (∀ p ∈ dsCsv, ∀ ts ∈ p.2,
        ((ts.1, p.1), (allSteps dsCsv).map (lookupStep ts.2))
          ∈ (write_csv_table dsCsv).cols)
    ∧ (∀ p ∈ dsCsv, ∀ ts ∈ p.2, ∀ sv ∈ ts.2,
        sv.1 ∈ (write_csv_table dsCsv).index
        ∧ lookupStep ts.2 sv.1 = some sv.2)
    ∧ (∀ s : Series, ∀ st : Int,
        st ∉ s.map Prod.fst → lookupStep s st = none) :=
  c6_table_shape dsCsv (by decide)

/-- C7: writing a dataset through the tabular writer and reloading through
the documented two-level-header convention (modelled, per the spec, as the
identity contract of the opaque table sink) reproduces exactly the original
(op, tag, step, value) quadruples, in order. -/
theorem c7_roundtrip (d : ReducedDataset)
    (hStepK : ∀ p ∈ d, ∀ ts ∈ p.2,
      stepsIncreasing (ts.2.map Prod.fst) = true) :
    tableQuadruples (reload_csv (write_csv_table d)) = datasetQuadruples d := by
  unfold reload_csv tableQuadruples
  rw [write_csv_table_cols,
    show (write_csv_table d).index = allSteps d from rfl,
    List.flatMap_assoc]
  unfold datasetQuadruples
  apply List.flatMap_congr
  intro p hp
  rw [List.flatMap_map]
  apply List.flatMap_congr
  intro ts hts
  rw [zip_index_map, List.filterMap_map]
  exact filterMap_lookup_sorted p.1 ts.1 (allSteps d) ts.2 (allSteps_chain d)
    (stepsIncreasing_chain _ (hStepK p hp ts hts))
    (fun sv hsv => steps_mem_allSteps d p hp ts hts sv hsv)

/-- C7 (witness): the round trip applied to the concrete two-op dataset with
differing step sets. -/
theorem c7_roundtrip_witness :
    tableQuadruples (reload_csv (write_csv_table dsCsv))
      = datasetQuadruples dsCsv :=
  c7_roundtrip dsCsv (by decide)

end TBReducer
